import Mathlib

/-!
Shallow embedding of the outcome-simulation engine of
`src/kbo_teamstat_streamlit.py`: the independent-trial simulator
(`monte_carlo_expected_wins`), the per-team championship simulator
(`calculate_championship_probability`, `_validate_sim_inputs`), and the
pairwise Bradley-Terry pipeline inside `main` (`bt_fit`, the matrix
sanitization, the per-pair season simulation, and the rank-distribution
aggregation).

Machine floats of the source are embedded as rationals (`ℚ`); the
IEEE special values NaN/±inf, which the source handles explicitly with
`np.nan_to_num`, are embedded by the `NpFloat` variant type.  numpy's
pseudo-random generator is embedded as a deterministic stream of raw
words derived from the seed (`Rng`); a binomial draw `Binomial(n, p)`
is any value of the stream clipped into the support `[0, n]` that numpy
guarantees, with the degenerate cases `p ≤ 0 ↦ 0` and `p ≥ 1 ↦ n`.
-/

/-- Model of a numpy random-generator state: an underlying raw word
stream (a pure function of the seed) together with a position in it. -/
structure Rng where
  stream : ℕ → ℕ
  pos : ℕ
deriving Inhabited

/-- Model of `np.random.default_rng(seed)`: the raw stream is some fixed
deterministic function of the seed (the precise bits are irrelevant to
every property proved here), starting at position 0. -/
def mkRng (seed : ℕ) : Rng :=
  ⟨fun k => (seed + 2654435761 * k) % 4294967296, 0⟩

/-- Model of a single numpy draw from `Binomial(n, p)`: for `p ≤ 0` the
draw is 0, for `p ≥ 1` it is `n`, and otherwise it is the raw stream
word clipped into the support `[0, n]`. -/
def npBinomial (n : ℕ) (p : ℚ) (raw : ℕ) : ℕ :=
  if p ≤ 0 then 0 else if 1 ≤ p then n else min raw n

/-- One binomial draw, consuming one position of the stream. -/
def Rng.binom (g : Rng) (n : ℕ) (p : ℚ) : ℕ × Rng :=
  (npBinomial n p (g.stream g.pos), ⟨g.stream, g.pos + 1⟩)

/-- `size`-many draws from `Binomial(n, p)` with a fixed `n` (the model
of `np.random.binomial(n=n, p=p, size=size)`). -/
def drawBinomRep (n : ℕ) (p : ℚ) : ℕ → Rng → List ℕ × Rng
  | 0, g => ([], g)
  | size + 1, g =>
    let d := g.binom n p
    let rest := drawBinomRep n p size d.2
    (d.1 :: rest.1, rest.2)

/-- Source `monte_carlo_expected_wins` (lines 888-896): boundary cases
return without touching the generator, otherwise the mean of `n_sims`
draws from `Binomial(n_games, p)` is returned.  The generator state is
threaded explicitly (the source uses the global `np.random` state). -/
def monte_carlo_expected_wins (p : ℚ) (n_games : ℤ) (n_sims : ℕ) (g : Rng) :
    ℚ × Rng :=
  if n_games ≤ 0 then (0, g)
  else if p ≤ 0 then (0, g)
  else if 1 ≤ p then ((n_games : ℚ), g)
  else
    let wins := drawBinomRep n_games.toNat p n_sims g
    (((wins.1.map (fun k => (k : ℚ))).sum) / (n_sims : ℚ), wins.2)

/-! ## Per-team championship simulator

Embedding of `calculate_championship_probability` (source lines 898-988)
and `_validate_sim_inputs` (source lines 1070-1083).  A pandas DataFrame
cell that `pd.to_numeric(..., errors="coerce")` may turn into NaN is
embedded as an `Option ℚ` (`none` = NaN); `fillna(0)` is `Option.getD 0`;
`astype(int)` truncates toward zero. -/

/-- Truncation of a rational toward zero, the behavior of numpy
`astype(int)` on a float. -/
def qTrunc (q : ℚ) : ℤ := if q < 0 then -(⌊-q⌋) else ⌊q⌋

/-- Source `normalize_team_names` (lines 340-349) on one cell: the
regex `\s+` replacement removes every whitespace character. -/
def stripWs (s : String) : String := ⟨s.data.filter (fun c => !c.isWhitespace)⟩

/-- A raw row of the simulation input table `df_final`: the four
required columns, each numeric cell possibly NaN, the name possibly NaN
(`none`). -/
structure TeamRow where
  name : Option String
  wins : Option ℚ
  p_wpct : Option ℚ
  remain : Option ℚ
deriving DecidableEq

/-- The simulation input table: which of the required columns are
present, and the rows.  (`hasName` = `"팀명"`, `hasWins` = `"승"`,
`hasPw` = `"p_wpct"`, `hasRemain` = `"잔여경기"`.) -/
structure SimTable where
  hasName : Bool
  hasWins : Bool
  hasPw : Bool
  hasRemain : Bool
  rows : List TeamRow
deriving DecidableEq

/-- All four required columns present (the `missing` check of source
lines 906-910). -/
def requiredColsPresent (t : SimTable) : Bool :=
  t.hasName && t.hasWins && t.hasPw && t.hasRemain

/-- A cleaned team record, after the type coercions of source lines
912-919: `잔여경기` coerced/fillna(0)/int/clip(lower=0), `승`
coerced/fillna(0)/int, `p_wpct` coerced/fillna(0.0), and the team name
normalized (`str(nan) = "nan"` for a missing name, then whitespace
stripped). -/
structure Team where
  name : String
  wins : ℤ
  p_wpct : ℚ
  remain : ℕ
deriving DecidableEq, Inhabited

/-- Cleaning of one raw row (source lines 912-919). -/
def cleanRow (r : TeamRow) : Team :=
  { name := stripWs ((r.name).getD "nan")
    wins := qTrunc ((r.wins).getD 0)
    p_wpct := (r.p_wpct).getD 0
    remain := (qTrunc ((r.remain).getD 0)).toNat }

/-- Cleaning of the whole table.  The subsequent `notna` row filter of
source line 922 keeps every row, because every NaN was already filled
with 0. -/
def cleanTeams (rows : List TeamRow) : List Team := rows.map cleanRow

/-- One team's simulated-additional-wins column for a batch of `B`
seasons (source lines 960-967): no draw at all when the remaining games
or the probability are degenerate, otherwise `B` binomial draws. -/
def teamColumn (tm : Team) (B : ℕ) (g : Rng) : List ℕ × Rng :=
  if tm.remain = 0 ∨ tm.p_wpct ≤ 0 then (List.replicate B 0, g)
  else if 1 ≤ tm.p_wpct then (List.replicate B tm.remain, g)
  else drawBinomRep tm.remain tm.p_wpct B g

/-- The per-team columns of one batch, drawn team by team in input
order (the `for t in range(T)` loop of source line 960). -/
def simColumns : List Team → ℕ → Rng → List (List ℕ) × Rng
  | [], _, g => ([], g)
  | tm :: rest, B, g =>
    let c := teamColumn tm B g
    let cs := simColumns rest B c.2
    (c.1 :: cs.1, cs.2)

/-- Maximum of a list of integers (`0` on the empty list; the source
never takes it on an empty row). -/
def listMax : List ℤ → ℤ
  | [] => 0
  | [x] => x
  | x :: y :: xs => max x (listMax (y :: xs))

/-- Model of `np.argmax`: the index of the first occurrence of the
maximum value. -/
def npArgmax (xs : List ℤ) : ℕ := xs.indexOf (listMax xs)

/-- Row `s` of `final_wins = sim + current_wins` (source line 969):
current wins plus the simulated additional wins of season `s`. -/
def finalWinsRow (ts : List Team) (cols : List (List ℕ)) (s : ℕ) : List ℤ :=
  (ts.zip cols).map (fun tc => tc.1.wins + (tc.2.getD s 0 : ℤ))

/-- The champion index of each season of a batch (source lines 974-980:
`idx = np.argmax(final_wins, axis=1)`). -/
def seasonWinners (ts : List Team) (B : ℕ) (cols : List (List ℕ)) : List ℕ :=
  (List.range B).map (fun s => npArgmax (finalWinsRow ts cols s))

/-- The batch sizes of the simulation loop (source lines 950-956):
`n_batches = ceil(numSim / batch)` batches, each of size `batch` except
a shorter final one when `batch` does not divide `numSim`. -/
def champBatchSizes (numSim batch : ℕ) : List ℕ :=
  (List.range ((numSim + batch - 1) / batch)).map
    (fun b => if (b + 1) * batch ≤ numSim then batch else numSim - b * batch)

/-- The batched simulation loop (source lines 953-980): each nonempty
batch draws its per-team columns and credits one winner per season.
Returns the winner indices of all seasons, in order. -/
def runBatches (ts : List Team) : List ℕ → Rng → List ℕ × Rng
  | [], g => ([], g)
  | B :: rest, g =>
    if B = 0 then runBatches ts rest g
    else
      let cols := simColumns ts B g
      let winners := if ts.isEmpty then [] else seasonWinners ts B cols.1
      let more := runBatches ts rest cols.2
      (winners ++ more.1, more.2)

/-- Source `calculate_championship_probability` (lines 898-988).  The
returned association list models the Python dict: one entry per distinct
team name in first-occurrence order (`names.dedup`), carrying the
percentage.  The generator state is returned alongside (the source uses
the global `np.random` state). -/
def calculate_championship_probability (tbl : Option SimTable) (numSim : ℕ)
    (g : Rng) : List (String × ℚ) × Rng :=
  match tbl with
  | none => ([], g)
  | some t =>
    if t.rows.isEmpty then ([], g)
    else if ¬ requiredColsPresent t then ([], g)
    else
      let ts := cleanTeams t.rows
      if ts.isEmpty then ([], g)
      else
        let names := ts.map Team.name
        if ts.all (fun tm => tm.remain = 0) then
          let w := npArgmax (ts.map Team.wins)
          (names.dedup.map
            (fun nm => (nm, if nm = names.getD w "" then (100 : ℚ) else 0)), g)
        else
          let sizes := champBatchSizes numSim 10000
          let res := runBatches ts sizes g
          let winNames := res.1.map (fun i => names.getD i "")
          (names.dedup.map
            (fun nm =>
              (nm, ((winNames.countP (fun x => x == nm) : ℚ) / (numSim : ℚ)) * 100)),
           res.2)

/-- Source `_validate_sim_inputs` (lines 1070-1083). -/
def validate_sim_inputs (tbl : Option SimTable) : Bool :=
  match tbl with
  | none => false
  | some t =>
    if t.rows.isEmpty then false
    else if ¬ requiredColsPresent t then false
    else if t.rows.all (fun r => r.name = none) then false
    else true

/-! ## Pairwise (Bradley-Terry) pipeline

Embedding of the Bradley-Terry block inside `main` (source lines
1442-1549): the MM fitter `bt_fit`, the sanitization of the win
probability matrix `P` and of the tie-rate matrix `tie_pair`, the
per-pair season simulation, and the rank-distribution aggregation. -/

/-- Elementwise vectorized binomial draw (the model of
`rng.binomial(ns, p, size=len(ns))` with a per-element trial count):
one stream word per element. -/
def drawBinomVec (p : ℚ) : List ℕ → Rng → List ℕ × Rng
  | [], g => ([], g)
  | n :: ns, g =>
    let d := g.binom n p
    let rest := drawBinomVec p ns d.2
    (d.1 :: rest.1, rest.2)

/-- Source lines 1513-1516 for one pair `(i, j)` with `r` remaining
games over `S` seasons: draw the tie counts from `Binomial(r, tieP)`,
then split the non-tie remainder by `Binomial(r - ties, winP)`.  Each
season yields the triple (wins of `i`, wins of `j`, ties), the exact
amounts credited to the pair at source lines 1518-1523. -/
def simPair (S r : ℕ) (tieP winP : ℚ) (g : Rng) :
    List (ℕ × ℕ × ℕ) × Rng :=
  let ties := drawBinomVec tieP (List.replicate S r) g
  let winsI := drawBinomVec winP (ties.1.map (fun t => r - t)) ties.2
  ((winsI.1.zip ties.1).map (fun wt => (wt.1, (r - wt.2) - wt.1, wt.2)),
   winsI.2)

/-- The pair list of source line 1506:
`[(i, j) for i in range(n) for j in range(i+1, n) if R[i, j] > 0]`. -/
def pairsList (n : ℕ) (R : ℕ → ℕ → ℕ) : List (ℕ × ℕ) :=
  (List.range n).flatMap
    (fun i => ((List.range n).filter (fun j => decide (i < j) && decide (0 < R i j))).map
      (fun j => (i, j)))

/-- Add a per-season value list into one column of a seasons × teams
accumulator (one `final_x[:, c] += vals` of source lines 1518-1523). -/
def addCol (acc : ℕ → ℕ → ℕ) (c : ℕ) (vals : List ℕ) : ℕ → ℕ → ℕ :=
  fun s k => acc s k + (if k = c then vals.getD s 0 else 0)

/-- The per-pair accumulation loop of source lines 1507-1523, threading
the generator.  The accumulator triple is (final wins, final losses,
final ties), each a function (season, team) ↦ count. -/
def accumPairs (tieM winM : ℕ → ℕ → ℚ) (R : ℕ → ℕ → ℕ) (S : ℕ) :
    List (ℕ × ℕ) → ((ℕ → ℕ → ℕ) × (ℕ → ℕ → ℕ) × (ℕ → ℕ → ℕ)) → Rng →
    ((ℕ → ℕ → ℕ) × (ℕ → ℕ → ℕ) × (ℕ → ℕ → ℕ)) × Rng
  | [], acc, g => (acc, g)
  | (i, j) :: rest, (fw, fl, ft), g =>
    let res := simPair S (R i j)
      (max 0 (min 1 (tieM i j))) (max 0 (min 1 (winM i j))) g
    let wi := res.1.map (fun x => x.1)
    let wj := res.1.map (fun x => x.2.1)
    let tt := res.1.map (fun x => x.2.2)
    accumPairs tieM winM R S rest
      (addCol (addCol fw i wi) j wj,
       addCol (addCol fl i wj) j wi,
       addCol (addCol ft i tt) j tt) res.2

/-- One tiny zero-mean perturbation value derived from a raw stream
word: the model of one `rng.normal(0, 1e-9)` draw (only its smallness
and determinism matter). -/
def npNormalTiny (raw : ℕ) : ℚ :=
  (((raw % 2000001 : ℕ) : ℚ) - 1000000) / 10 ^ 15

/-- The model of `rng.normal(0, 1e-9, size=(S, n))` (source line 1539):
an `S × n` matrix of tiny perturbations read off the stream in row-major
order, advancing the stream by `S * n` words. -/
def drawNormals (S n : ℕ) (g : Rng) : (ℕ → ℕ → ℚ) × Rng :=
  ((fun s k => npNormalTiny (g.stream (g.pos + s * n + k))),
   ⟨g.stream, g.pos + S * n⟩)

/-- Model of `np.argsort` on the negated row (source line 1540): the
team indices ordered by descending perturbed win percentage.  numpy's
quicksort and this merge sort may order exact ties differently; both
return a permutation of `range n`, which is all any property here
uses. -/
def argsortDesc (xs : List ℚ) : List ℕ :=
  (List.range xs.length).mergeSort (fun a b => decide (xs.getD b 0 ≤ xs.getD a 0))

/-- The final rank of team `i` in a season whose descending order is
`ord` (source lines 1541-1543: `seed[s, rank_order[s]] = 1..n`). -/
def rankOfTeam (ord : List ℕ) (i : ℕ) : ℕ := ord.indexOf i + 1

/-- Number of simulated seasons in which team `i` finishes at exactly
rank `r` (source line 1548: `np.bincount(seed[:, i], ...)`), for a
perturbed win-percentage matrix `M` with one row per season. -/
def rankCount (M : List (List ℚ)) (i r : ℕ) : ℕ :=
  (M.map argsortDesc).countP (fun ord => decide (rankOfTeam ord i = r))

/-- Source line 1549: `rank_pct[i] = counts / SEASONS * 100`. -/
def rank_pct (M : List (List ℚ)) (i r : ℕ) : ℚ :=
  ((rankCount M i r : ℚ) / (M.length : ℚ)) * 100

/-! ### The Bradley-Terry fitter `bt_fit` (source lines 1442-1467). -/

/-- `w_i = (W[i, :] + 0.5 * T[i, :]).sum()` (source line 1450). -/
def btNumer (W T : ℕ → ℕ → ℕ) (n i : ℕ) : ℚ :=
  ∑ j ∈ Finset.range n, ((W i j : ℚ) + (1 / 2) * (T i j : ℚ))

/-- The denominator `Σ_{j ≠ i, G[i,j] > 0} G[i,j] / (s[i] + s[j])`
(source lines 1451-1457). -/
def btDenom (G : ℕ → ℕ → ℕ) (n : ℕ) (s : ℕ → ℚ) (i : ℕ) : ℚ :=
  ∑ j ∈ Finset.range n,
    if j = i then 0
    else if 0 < G i j then (G i j : ℚ) / (s i + s j) else 0

/-- The raw per-team update of source line 1458: `w_i / denom` when the
denominator is positive, otherwise the previous value `s[i]`. -/
def btUpdateRaw (W T G : ℕ → ℕ → ℕ) (n : ℕ) (s : ℕ → ℚ) : ℕ → ℚ :=
  fun i =>
    if 0 < btDenom G n s i then btNumer W T n i / btDenom G n s i else s i

/-- `np.clip(new_s, 1e-12, None)` (source line 1459). -/
def btClip (s : ℕ → ℚ) : ℕ → ℚ := fun i => max (1 / 10 ^ 12) (s i)

/-- `new_s / new_s.sum()` over the first `n` entries (source line
1460, and the initialization `s /= s.sum()` of line 1445). -/
def btNormalize (n : ℕ) (s : ℕ → ℚ) : ℕ → ℚ :=
  fun i => s i / ∑ j ∈ Finset.range n, s j

/-- One full iteration of `update` (source lines 1447-1460). -/
def btUpdate (W T G : ℕ → ℕ → ℕ) (n : ℕ) (s : ℕ → ℚ) : ℕ → ℚ :=
  btNormalize n (btClip (btUpdateRaw W T G n s))

/-- `np.max(np.abs(new_s - s))` over the first `n` entries (source
line 1464). -/
def btMaxDiff (n : ℕ) (a b : ℕ → ℚ) : ℚ :=
  ((List.range n).map (fun i => |a i - b i|)).foldr max 0

/-- The convergence loop of source lines 1462-1467, with fuel equal to
the remaining iteration budget. -/
def btLoop (W T G : ℕ → ℕ → ℕ) (n : ℕ) : ℕ → (ℕ → ℚ) → (ℕ → ℚ)
  | 0, s => s
  | k + 1, s =>
    let ns := btUpdate W T G n s
    if btMaxDiff n ns s < 1 / 10 ^ 10 then ns else btLoop W T G n k ns

/-- Source `bt_fit` (lines 1442-1467): uniform start `s = 1/n`, then at
most `max_iter = 1000` MM iterations with tolerance `1e-10`. -/
def bt_fit (W T G : ℕ → ℕ → ℕ) (n : ℕ) : ℕ → ℚ :=
  btLoop W T G n 1000 (btNormalize n (fun _ => 1))

/-! ### Matrix sanitization (source lines 1472-1488)

The entries of `P = S / (S + S.T)` and of `tie_pair` are machine floats
that may be NaN or ±inf; the variant type `NpFloat` embeds exactly that
value space. -/

/-- A machine-float value: NaN, +inf, -inf, or a finite value. -/
inductive NpFloat where
  | nan : NpFloat
  | posinf : NpFloat
  | neginf : NpFloat
  | val : ℚ → NpFloat
deriving DecidableEq

/-- Model of `np.nan_to_num(x, nan=nanv, posinf=pinfv, neginf=ninfv)`
on one entry. -/
def nan_to_num (nanv pinfv ninfv : ℚ) : NpFloat → ℚ
  | .nan => nanv
  | .posinf => pinfv
  | .neginf => ninfv
  | .val q => q

/-- `np.clip(x, 0.0, 1.0)` on one entry. -/
def clip01 (q : ℚ) : ℚ := max 0 (min 1 q)

/-- Sanitization of the win-probability matrix `P` (source lines
1476-1478): `nan_to_num(P, nan=0.5, posinf=1.0, neginf=0.0)`, then
`clip(P, 0.0, 1.0)`, then `fill_diagonal(P, 0.0)`. -/
def sanitizeP (M : List (List NpFloat)) : List (List ℚ) :=
  M.mapIdx (fun i row => row.mapIdx
    (fun j x => if i = j then 0 else clip01 (nan_to_num (1 / 2) 1 0 x)))

/-- The raw tie-rate matrix `tie_pair = np.where(G_played > 0,
T / G_played, np.nan)` (source line 1482) as an `n × n` float matrix. -/
def tieRaw (Tm G : ℕ → ℕ → ℕ) (n : ℕ) : List (List NpFloat) :=
  (List.range n).map (fun i => (List.range n).map
    (fun j => if 0 < G i j then .val ((Tm i j : ℚ) / (G i j : ℚ)) else .nan))

/-- Model of `np.nanmean` (source line 1483): the mean of the finite
entries, NaN when there is none.  (±inf inputs do not occur on this
call site; folding them into the mean is not needed for any property
proved here, so they are ignored like NaN.) -/
def nanMean (M : List (List NpFloat)) : NpFloat :=
  let vals := M.flatten.filterMap
    (fun x => match x with | .val q => some q | _ => none)
  if vals.isEmpty then .nan else .val (vals.sum / (vals.length : ℚ))

/-- Sanitization of the tie-rate matrix (source lines 1484-1488):
NaN entries are first replaced by the league-wide mean tie rate, then
`nan_to_num(tie_pair, nan=0.0, posinf=1.0, neginf=0.0)`, then
`clip(0.0, 1.0)`, then `fill_diagonal(0.0)`. -/
def sanitizeTie (M : List (List NpFloat)) : List (List ℚ) :=
  let lg := nanMean M
  let M1 := M.map (List.map (fun x => if x = .nan then lg else x))
  M1.mapIdx (fun i row => row.mapIdx
    (fun j x => if i = j then 0 else clip01 (nan_to_num 0 1 0 x)))

/-! ### The composed pairwise season simulation (source lines 1490-1549). -/

/-- The `S × n` matrix of perturbed final win percentages of source
lines 1495-1540: seed the generator, simulate every remaining pair, add
the current records, compute the clipped tie-adjusted win percentage
`(w + 0.5 t) / max(1, games)`, and add the tiny rank-ordering noise.
`S` is the season count (`SEASONS = 1_000_000` at source line 1495,
kept as a parameter) and `seed` the generator seed (42 at source line
1496). -/
def btPerturbed (n : ℕ) (R : ℕ → ℕ → ℕ) (tieM winM : ℕ → ℕ → ℚ)
    (curW curL curT : ℕ → ℕ) (S : ℕ) (seed : ℕ) : List (List ℚ) :=
  let g := mkRng seed
  let res := accumPairs tieM winM R S (pairsList n R)
    ((fun _ _ => 0), (fun _ _ => 0), (fun _ _ => 0)) g
  let fw := fun s k => res.1.1 s k + curW k
  let fl := fun s k => res.1.2.1 s k + curL k
  let ft := fun s k => res.1.2.2 s k + curT k
  let noise := drawNormals S n res.2
  (List.range S).map (fun s => (List.range n).map (fun k =>
    let tot := fw s k + fl s k + ft s k
    clip01 (((fw s k : ℚ) + (1 / 2) * (ft s k : ℚ)) / ((max 1 tot : ℕ) : ℚ))
      + noise.1 s k))

/-- The full pairwise simulation of source lines 1495-1549: the
`n × n` rank-distribution matrix `rank_pct`, row `i` column `r - 1`
holding the percentage of simulated seasons in which team `i` finishes
at rank `r`. -/
def btSimulate (n : ℕ) (R : ℕ → ℕ → ℕ) (tieM winM : ℕ → ℕ → ℚ)
    (curW curL curT : ℕ → ℕ) (S : ℕ) (seed : ℕ) : List (List ℚ) :=
  let perturbed := btPerturbed n R tieM winM curW curL curT S seed
  (List.range n).map (fun i => (List.range n).map (fun r => rank_pct perturbed i (r + 1)))

/-- A concrete input table: team A has 2 wins and no remaining games
(the strict current leader), team B has 1 win, 2 remaining games and
win probability 1. -/
def leaderCounterTable : SimTable :=
  ⟨true, true, true, true,
    [⟨some "A", some 2, some 0, some 0⟩, ⟨some "B", some 1, some 1, some 2⟩]⟩

/-- A concrete input table: team A has 5 wins and no remaining games;
team B has 1 win and 2 remaining games, so B cannot catch up. -/
def leaderWitnessTable : SimTable :=
  ⟨true, true, true, true,
    [⟨some "A", some 5, some 0, some 0⟩, ⟨some "B", some 1, some 1, some 2⟩]⟩

/-! ## Helper lemmas -/

/-- A binomial draw never exceeds the number of trials. -/
theorem npBinomial_le (n : ℕ) (p : ℚ) (raw : ℕ) : npBinomial n p raw ≤ n := by
  unfold npBinomial
  split
  · exact Nat.zero_le n
  · split
    · exact Nat.le_refl n
    · exact Nat.min_le_right raw n

theorem drawBinomRep_getD_le (n : ℕ) (p : ℚ) : ∀ (size : ℕ) (g : Rng) (s : ℕ),
    (drawBinomRep n p size g).1.getD s 0 ≤ n := by
  intro size
  induction size with
  | zero => intro g s; simp [drawBinomRep]
  | succ m ih =>
    intro g s
    match s with
    | 0 => exact npBinomial_le n p _
    | s + 1 => simp only [drawBinomRep, List.getD_cons_succ]; exact ih _ s

theorem listMax_mem : ∀ (xs : List ℤ), xs ≠ [] → listMax xs ∈ xs
  | [x], _ => by simp [listMax]
  | x :: y :: xs, _ => by
    rw [listMax]
    rcases max_choice x (listMax (y :: xs)) with h | h
    · rw [h]; exact List.mem_cons_self ..
    · rw [h]; exact List.mem_cons_of_mem _ (listMax_mem (y :: xs) (by simp))

theorem le_listMax : ∀ (xs : List ℤ) (a : ℤ), a ∈ xs → a ≤ listMax xs
  | [x], a, ha => by
    rw [List.mem_singleton] at ha
    rw [ha, listMax]
  | x :: y :: xs, a, ha => by
    rw [listMax]
    rcases List.mem_cons.1 ha with h | h
    · rw [h]; exact le_max_left ..
    · exact le_trans (le_listMax (y :: xs) a h) (le_max_right ..)

theorem indexOf_le_of_getElem (xs : List ℤ) (v : ℤ) : ∀ (j : ℕ)
    (h : j < xs.length), xs[j] = v → xs.indexOf v ≤ j := by
  induction xs with
  | nil => intro j h; simp at h
  | cons x t ih =>
    intro j h he
    match j with
    | 0 =>
      simp only [List.getElem_cons_zero] at he
      simp [List.indexOf_cons, he]
    | j + 1 =>
      rw [List.indexOf_cons]
      cases hbe : x == v with
      | true => simp
      | false =>
        simp only [cond_false]
        exact Nat.succ_le_succ (ih j (by simpa using h) (by simpa using he))

theorem npArgmax_lt_length (xs : List ℤ) (h : xs ≠ []) :
    npArgmax xs < xs.length :=
  List.indexOf_lt_length.2 (listMax_mem xs h)

theorem getElem_npArgmax (xs : List ℤ) (h : npArgmax xs < xs.length) :
    xs[npArgmax xs] = listMax xs :=
  List.getElem_indexOf h

theorem npArgmax_eq_of_unique (xs : List ℤ) (i : ℕ) (hi : i < xs.length)
    (hu : ∀ j, (hj : j < xs.length) → j ≠ i → xs[j] < xs[i]) :
    npArgmax xs = i := by
  have hne : xs ≠ [] := by
    intro h; rw [h] at hi; simp at hi
  have hmax : listMax xs = xs[i] := by
    refine le_antisymm ?_ (le_listMax xs _ (List.getElem_mem hi))
    obtain ⟨k, hk, hke⟩ := List.mem_iff_getElem.1 (listMax_mem xs hne)
    rw [← hke]
    by_cases hki : k = i
    · subst hki; exact le_refl _
    · exact le_of_lt (hu k hk hki)
  have hw : npArgmax xs < xs.length := npArgmax_lt_length xs hne
  by_contra hne2
  have := hu (npArgmax xs) hw hne2
  rw [getElem_npArgmax xs hw, hmax] at this
  exact lt_irrefl _ this

/-! ## Claim theorems -/

/-- C4: `monte_carlo_expected_wins(p, n_games, n_sims)` returns 0
exactly when `n_games ≤ 0`; returns 0 exactly when `p ≤ 0`, for every
remaining-games count and every trial count; and returns `n_games`
exactly when `p ≥ 1` (and the remaining-games count is non-negative, so
that the earlier `n_games ≤ 0 ↦ 0` branch does not fire first).  In all
three cases the generator state is returned untouched: no random
sampling is performed, independently of the random state. -/
theorem monte_carlo_boundary (p : ℚ) (n_games : ℤ) (n_sims : ℕ) (g : Rng) :
    (n_games ≤ 0 → monte_carlo_expected_wins p n_games n_sims g = (0, g)) ∧
    (p ≤ 0 → monte_carlo_expected_wins p n_games n_sims g = (0, g)) ∧
    (1 ≤ p → 0 ≤ n_games →
      monte_carlo_expected_wins p n_games n_sims g = ((n_games : ℚ), g)) := by
  refine ⟨?_, ?_, ?_⟩
  · intro h
    simp [monte_carlo_expected_wins, h]
  · intro hp
    unfold monte_carlo_expected_wins
    by_cases hn : n_games ≤ 0
    · simp [hn]
    · have h1 : ¬ (1 : ℚ) ≤ p := by linarith
      simp [hn, hp, h1]
  · intro hp hn
    unfold monte_carlo_expected_wins
    by_cases h0 : n_games ≤ 0
    · have : n_games = 0 := le_antisymm h0 hn
      simp [this]
    · have hple : ¬ p ≤ 0 := by linarith
      simp [h0, hple, hp]

/-- Witness for `monte_carlo_boundary` at concrete inputs. -/
theorem monte_carlo_boundary_witness :
    monte_carlo_expected_wins (1/2) (-2) 5 (mkRng 0) = (0, mkRng 0) ∧
    monte_carlo_expected_wins (-1/3) 7 5 (mkRng 0) = (0, mkRng 0) ∧
    monte_carlo_expected_wins 2 3 5 (mkRng 0) = ((3 : ℚ), mkRng 0) :=
  ⟨(monte_carlo_boundary (1/2) (-2) 5 (mkRng 0)).1 (by norm_num),
   (monte_carlo_boundary (-1/3) 7 5 (mkRng 0)).2.1 (by norm_num),
   by
    have := (monte_carlo_boundary 2 3 5 (mkRng 0)).2.2 (by norm_num) (by norm_num)
    simpa using this⟩

theorem drawBinomVec_getD_le (p : ℚ) (ns : List ℕ) : ∀ (g : Rng) (k : ℕ),
    (drawBinomVec p ns g).1.getD k 0 ≤ ns.getD k 0 := by
  induction ns with
  | nil => intro g k; simp [drawBinomVec]
  | cons n ns ih =>
    intro g k
    match k with
    | 0 => exact npBinomial_le n p _
    | k + 1 =>
      simp only [drawBinomVec, List.getD_cons_succ]
      exact ih _ k

theorem pairTriples_sum (r : ℕ) : ∀ (ws tl : List ℕ),
    (∀ k, tl.getD k 0 ≤ r) → (∀ k, ws.getD k 0 ≤ r - tl.getD k 0) →
    ∀ x ∈ (ws.zip tl).map (fun wt => (wt.1, (r - wt.2) - wt.1, wt.2)),
      x.1 + x.2.1 + x.2.2 = r := by
  intro ws
  induction ws with
  | nil => intro tl _ _ x hx; simp at hx
  | cons w ws ih =>
    intro tl hts hws x hx
    match tl with
    | [] => simp at hx
    | t :: tl =>
      rcases List.mem_cons.1 hx with h | h
      · have h1 : t ≤ r := by simpa using hts 0
        have h2 : w ≤ r - t := by simpa using hws 0
        rw [h]
        simp only
        omega
      · exact ih tl (fun k => by simpa using hts (k + 1))
          (fun k => by simpa using hws (k + 1)) x h

/-- C1: in the pairwise-model season simulation, for every simulated
season of every pair `(i, j)` with `r` remaining games, the wins
credited to `i` against `j`, the losses credited to `i` against `j`
(= wins of `j`), and the ties credited between them add up to exactly
`r`, as integers, for every tie rate, win probability and generator
state. -/
theorem simPair_games_conserved (S r : ℕ) (tieP winP : ℚ) (g : Rng) :
    ∀ x ∈ (simPair S r tieP winP g).1, x.1 + x.2.1 + x.2.2 = r := by
  simp only [simPair]
  refine pairTriples_sum r _ _ (fun k => ?_) (fun k => ?_)
  · refine le_trans (drawBinomVec_getD_le tieP _ g k) ?_
    by_cases hk : k < S
    · rw [List.getD_eq_getElem _ _ (by simpa using hk), List.getElem_replicate]
    · rw [List.getD_eq_default _ _ (by simpa using not_lt.1 hk)]
      exact Nat.zero_le r
  · refine le_trans (drawBinomVec_getD_le winP _ _ k) ?_
    set tl := (drawBinomVec tieP (List.replicate S r) g).1 with htl
    by_cases hk : k < tl.length
    · rw [List.getD_eq_getElem _ _ (by simpa using hk), List.getElem_map,
        List.getD_eq_getElem _ _ hk]
    · rw [List.getD_eq_default _ _ (by simpa using not_lt.1 hk),
        List.getD_eq_default _ _ (not_lt.1 hk)]
      exact Nat.zero_le _

/-- Witness for `simPair_games_conserved`: a concrete pair simulation
with 3 remaining games whose only season splits as 3 + 0 + 0. -/
theorem simPair_games_conserved_witness :
    ((3, 0, 0) : ℕ × ℕ × ℕ) ∈ (simPair 1 3 0 2 (mkRng 0)).1 ∧
    (3 + 0 + 0 : ℕ) = 3 :=
  ⟨by decide,
   simPair_games_conserved 1 3 0 2 (mkRng 0) (3, 0, 0) (by decide)⟩

/-- C10 (implicit): in the per-team championship simulation the
season's champion is `np.argmax` of the final-wins row, which always
selects the team attaining the maximum final win total with the lowest
row index: the winner's final wins equal the row maximum and every tied
maximizer has an index at least as large.  No random perturbation is
involved in this choice. -/
theorem season_winner_lowest_index (ts : List Team) (cols : List (List ℕ))
    (B s : ℕ) (hs : s < B) (hts : ts ≠ []) (hcols : cols.length = ts.length) :
    (seasonWinners ts B cols).getD s 0 = npArgmax (finalWinsRow ts cols s) ∧
    (finalWinsRow ts cols s).getD (npArgmax (finalWinsRow ts cols s)) 0
      = listMax (finalWinsRow ts cols s) ∧
    (∀ j, (hj : j < (finalWinsRow ts cols s).length) →
      (finalWinsRow ts cols s)[j] = listMax (finalWinsRow ts cols s) →
      npArgmax (finalWinsRow ts cols s) ≤ j) := by
  have hvlen : (finalWinsRow ts cols s).length = ts.length := by
    simp [finalWinsRow, List.length_zip, hcols]
  have hvne : finalWinsRow ts cols s ≠ [] := by
    intro h
    rw [h] at hvlen
    exact hts (List.length_eq_zero.1 hvlen.symm)
  refine ⟨?_, ?_, ?_⟩
  · rw [seasonWinners, List.getD_eq_getElem _ _ (by simpa using hs),
      List.getElem_map, List.getElem_range]
  · rw [List.getD_eq_getElem _ _ (npArgmax_lt_length _ hvne)]
    exact getElem_npArgmax _ (npArgmax_lt_length _ hvne)
  · intro j hj he
    exact indexOf_le_of_getElem _ _ j hj he


/-- Witness for `season_winner_lowest_index`: two teams tied at 5 final
wins; the credited winner is index 0, the lowest tied index. -/
theorem season_winner_lowest_index_witness :
    (seasonWinners [⟨"A", 5, 0, 0⟩, ⟨"B", 5, 0, 0⟩] 1 [[0], [0]]).getD 0 0
      = npArgmax (finalWinsRow [⟨"A", 5, 0, 0⟩, ⟨"B", 5, 0, 0⟩] [[0], [0]] 0) ∧
    (finalWinsRow [⟨"A", 5, 0, 0⟩, ⟨"B", 5, 0, 0⟩] [[0], [0]] 0).getD
      (npArgmax (finalWinsRow [⟨"A", 5, 0, 0⟩, ⟨"B", 5, 0, 0⟩] [[0], [0]] 0)) 0
      = listMax (finalWinsRow [⟨"A", 5, 0, 0⟩, ⟨"B", 5, 0, 0⟩] [[0], [0]] 0) ∧
    npArgmax (finalWinsRow [⟨"A", 5, 0, 0⟩, ⟨"B", 5, 0, 0⟩] [[0], [0]] 0) ≤ 1 :=
  ⟨(season_winner_lowest_index [⟨"A", 5, 0, 0⟩, ⟨"B", 5, 0, 0⟩] [[0], [0]] 1 0
      (by decide) (by decide) (by decide)).1,
   (season_winner_lowest_index [⟨"A", 5, 0, 0⟩, ⟨"B", 5, 0, 0⟩] [[0], [0]] 1 0
      (by decide) (by decide) (by decide)).2.1,
   (season_winner_lowest_index [⟨"A", 5, 0, 0⟩, ⟨"B", 5, 0, 0⟩] [[0], [0]] 1 0
      (by decide) (by decide) (by decide)).2.2 1 (by decide) (by decide)⟩

/-- C8: a `None` input table, an empty input table, or a table missing
one of the required columns (`팀명`, `승`, `p_wpct`, `잔여경기`) is
rejected before any sampling begins: the championship simulation
returns an empty result with the generator state untouched (no random
draw, no partial work), and `_validate_sim_inputs` reports the input
invalid. -/
theorem sim_input_rejected (tbl : Option SimTable) (numSim : ℕ) (g : Rng)
    (h : tbl = none ∨
      ∃ t, tbl = some t ∧ (t.rows = [] ∨ requiredColsPresent t = false)) :
    calculate_championship_probability tbl numSim g = ([], g) ∧
    validate_sim_inputs tbl = false := by
  rcases h with h | ⟨t, rfl, h⟩
  · subst h
    exact ⟨rfl, rfl⟩
  · rcases h with h | h
    · constructor
      · simp [calculate_championship_probability, h]
      · simp [validate_sim_inputs, h]
    · by_cases hr : t.rows.isEmpty
      · constructor
        · simp [calculate_championship_probability, hr]
        · simp [validate_sim_inputs, hr]
      · constructor
        · simp [calculate_championship_probability, hr, h]
        · simp [validate_sim_inputs, hr, h]

/-- Witness for `sim_input_rejected`: a nonempty table missing the
`승` column. -/
theorem sim_input_rejected_witness :
    calculate_championship_probability
      (some ⟨true, false, true, true, [⟨some "A", some 3, some 0, some 2⟩]⟩) 7 (mkRng 0)
      = ([], mkRng 0) ∧
    validate_sim_inputs
      (some ⟨true, false, true, true, [⟨some "A", some 3, some 0, some 2⟩]⟩) = false :=
  sim_input_rejected
    (some ⟨true, false, true, true, [⟨some "A", some 3, some 0, some 2⟩]⟩) 7 (mkRng 0)
    (Or.inr ⟨_, rfl, Or.inr (by decide)⟩)

/-- C9: the season simulation is deterministic.  Two runs of the
pairwise Bradley-Terry simulation with identical model input and
identical seed produce identical output matrices, and two runs of the
per-team championship simulation with identical input and identical
random state produce identical probability maps (the embedded samplers
are pure functions of the seed / random state, the property numpy's
seeded generator guarantees). -/
theorem simulation_deterministic (n : ℕ) (R : ℕ → ℕ → ℕ)
    (tieM winM : ℕ → ℕ → ℚ) (curW curL curT : ℕ → ℕ) (S seed1 seed2 : ℕ)
    (tbl : Option SimTable) (numSim : ℕ) (g1 g2 : Rng)
    (hseed : seed1 = seed2) (hg : g1 = g2) :
    btSimulate n R tieM winM curW curL curT S seed1
      = btSimulate n R tieM winM curW curL curT S seed2 ∧
    calculate_championship_probability tbl numSim g1
      = calculate_championship_probability tbl numSim g2 := by
  subst hseed hg
  exact ⟨rfl, rfl⟩

/-- Witness for `simulation_deterministic` at a concrete 2-team model
with seed 42. -/
theorem simulation_deterministic_witness :
    btSimulate 2 (fun _ _ => 1) (fun _ _ => 0) (fun _ _ => 1)
        (fun _ => 3) (fun _ => 1) (fun _ => 0) 2 42
      = btSimulate 2 (fun _ _ => 1) (fun _ _ => 0) (fun _ _ => 1)
        (fun _ => 3) (fun _ => 1) (fun _ => 0) 2 42 ∧
    calculate_championship_probability
        (some ⟨true, true, true, true, [⟨some "A", some 3, some 0, some 2⟩]⟩) 7 (mkRng 5)
      = calculate_championship_probability
        (some ⟨true, true, true, true, [⟨some "A", some 3, some 0, some 2⟩]⟩) 7 (mkRng 5) :=
  simulation_deterministic 2 (fun _ _ => 1) (fun _ _ => 0) (fun _ _ => 1)
    (fun _ => 3) (fun _ => 1) (fun _ => 0) 2 42 42
    (some ⟨true, true, true, true, [⟨some "A", some 3, some 0, some 2⟩]⟩) 7
    (mkRng 5) (mkRng 5) rfl rfl

theorem btUpdate_pos_sum (W T G : ℕ → ℕ → ℕ) (n : ℕ) (hn : 1 ≤ n)
    (s : ℕ → ℚ) :
    (∀ i < n, 0 < btUpdate W T G n s i) ∧
    (∑ i ∈ Finset.range n, btUpdate W T G n s i = 1) := by
  have hclip : ∀ i, (0 : ℚ) < btClip (btUpdateRaw W T G n s) i := by
    intro i
    exact lt_of_lt_of_le (by norm_num) (le_max_left _ _)
  have htot : (0 : ℚ) < ∑ j ∈ Finset.range n, btClip (btUpdateRaw W T G n s) j :=
    Finset.sum_pos (fun j _ => hclip j) (Finset.nonempty_range_iff.2 (by omega))
  constructor
  · intro i _
    exact div_pos (hclip i) htot
  · unfold btUpdate btNormalize
    rw [← Finset.sum_div]
    exact div_self (ne_of_gt htot)

theorem btInit_pos_sum (n : ℕ) (hn : 1 ≤ n) :
    (∀ i < n, 0 < btNormalize n (fun _ => 1) i) ∧
    (∑ i ∈ Finset.range n, btNormalize n (fun _ => 1) i = 1) := by
  have htot : (0 : ℚ) < ∑ _j ∈ Finset.range n, (1 : ℚ) :=
    Finset.sum_pos (fun _ _ => one_pos) (Finset.nonempty_range_iff.2 (by omega))
  constructor
  · intro i _
    exact div_pos one_pos htot
  · unfold btNormalize
    rw [← Finset.sum_div]
    exact div_self (ne_of_gt htot)

theorem btLoop_pos_sum (W T G : ℕ → ℕ → ℕ) (n : ℕ) (hn : 1 ≤ n) :
    ∀ (fuel : ℕ) (s : ℕ → ℚ),
    ((∀ i < n, 0 < s i) ∧ ∑ i ∈ Finset.range n, s i = 1) →
    ((∀ i < n, 0 < btLoop W T G n fuel s i) ∧
      ∑ i ∈ Finset.range n, btLoop W T G n fuel s i = 1) := by
  intro fuel
  induction fuel with
  | zero => intro s hs; exact hs
  | succ k ih =>
    intro s hs
    rw [btLoop]
    split
    · exact btUpdate_pos_sum W T G n hn s
    · exact ih _ (btUpdate_pos_sum W T G n hn s)

/-- C7: for every pairwise count matrix and every league size `n ≥ 1`,
`bt_fit` returns a strength vector whose first `n` entries are strictly
positive and sum to exactly 1; and within an iteration, a team whose
total game count against all opponents is zero (zero denominator) keeps
its previous strength value in the raw update instead of receiving an
undefined one. -/
theorem bt_fit_pos_sum_keep (W T G : ℕ → ℕ → ℕ) (n : ℕ) (hn : 1 ≤ n) :
    (∀ i < n, 0 < bt_fit W T G n i) ∧
    (∑ i ∈ Finset.range n, bt_fit W T G n i = 1) ∧
    (∀ (s : ℕ → ℚ) (i : ℕ), btDenom G n s i = 0 →
      btUpdateRaw W T G n s i = s i) := by
  have h := btLoop_pos_sum W T G n hn 1000 _ (btInit_pos_sum n hn)
  refine ⟨h.1, h.2, ?_⟩
  intro s i hd
  unfold btUpdateRaw
  rw [hd]
  simp

/-- Witness for `bt_fit_pos_sum_keep`: a one-team league with no games
played. -/
theorem bt_fit_pos_sum_keep_witness :
    0 < bt_fit (fun _ _ => 0) (fun _ _ => 0) (fun _ _ => 0) 1 0 ∧
    (∑ i ∈ Finset.range 1, bt_fit (fun _ _ => 0) (fun _ _ => 0) (fun _ _ => 0) 1 i = 1) ∧
    btUpdateRaw (fun _ _ => 0) (fun _ _ => 0) (fun _ _ => 0) 1 (fun _ => 5) 0
      = (fun _ => (5 : ℚ)) 0 :=
  ⟨(bt_fit_pos_sum_keep (fun _ _ => 0) (fun _ _ => 0) (fun _ _ => 0) 1
      (by decide)).1 0 (by decide),
   (bt_fit_pos_sum_keep (fun _ _ => 0) (fun _ _ => 0) (fun _ _ => 0) 1
      (by decide)).2.1,
   (bt_fit_pos_sum_keep (fun _ _ => 0) (fun _ _ => 0) (fun _ _ => 0) 1
      (by decide)).2.2 (fun _ => 5) 0 (by simp [btDenom])⟩

theorem sanitizeGen_entry (g : NpFloat → ℚ) (N : List (List NpFloat))
    (i j : ℕ) (hi : i < N.length) (hj : j < (N.getD i []).length) :
    ((N.mapIdx (fun a row => row.mapIdx
        (fun b x => if a = b then 0 else clip01 (g x)))).getD i []).getD j 0
      = if i = j then 0 else clip01 (g ((N.getD i []).getD j .nan)) := by
  have hrow : N.getD i [] = N[i] := List.getD_eq_getElem N [] hi
  rw [hrow] at hj ⊢
  rw [List.getD_eq_getElem _ [] (by simpa [List.length_mapIdx] using hi),
    List.getElem_mapIdx,
    List.getD_eq_getElem _ 0 (by simpa [List.length_mapIdx] using hj),
    List.getElem_mapIdx, List.getD_eq_getElem _ _ hj]

theorem sanitizeGen_bounds (g : NpFloat → ℚ) (N : List (List NpFloat))
    (i j : ℕ) :
    0 ≤ ((N.mapIdx (fun a row => row.mapIdx
        (fun b x => if a = b then 0 else clip01 (g x)))).getD i []).getD j 0 ∧
    ((N.mapIdx (fun a row => row.mapIdx
        (fun b x => if a = b then 0 else clip01 (g x)))).getD i []).getD j 0 ≤ 1 := by
  by_cases hi : i < N.length
  · rw [List.getD_eq_getElem _ [] (by simpa [List.length_mapIdx] using hi),
      List.getElem_mapIdx]
    by_cases hj : j < N[i].length
    · rw [List.getD_eq_getElem _ 0 (by simpa [List.length_mapIdx] using hj),
        List.getElem_mapIdx]
      split
      · norm_num
      · exact ⟨le_max_left _ _, max_le (by norm_num) (min_le_left _ _)⟩
    · rw [List.getD_eq_default _ 0 (by simpa [List.length_mapIdx] using not_lt.1 hj)]
      norm_num
  · rw [List.getD_eq_default _ [] (by simpa [List.length_mapIdx] using not_lt.1 hi)]
    norm_num

theorem sanitizeGen_diag (g : NpFloat → ℚ) (N : List (List NpFloat)) (i : ℕ) :
    ((N.mapIdx (fun a row => row.mapIdx
        (fun b x => if a = b then 0 else clip01 (g x)))).getD i []).getD i 0 = 0 := by
  by_cases hi : i < N.length
  · rw [List.getD_eq_getElem _ [] (by simpa [List.length_mapIdx] using hi),
      List.getElem_mapIdx]
    by_cases hj : i < N[i].length
    · rw [List.getD_eq_getElem _ 0 (by simpa [List.length_mapIdx] using hj),
        List.getElem_mapIdx]
      simp
    · rw [List.getD_eq_default _ 0 (by simpa [List.length_mapIdx] using not_lt.1 hj)]
  · rw [List.getD_eq_default _ [] (by simpa [List.length_mapIdx] using not_lt.1 hi)]
    rfl

/-- C5 counterexample: after the sanitization of source lines
1476-1478, a `+inf` entry of `P` is replaced with 1.0 (the `posinf`
argument of `np.nan_to_num`), not with the neutral value 0.5 that the
claim states for every NaN-or-infinite entry. -/
theorem sanitizeP_posinf_not_half :
    ((sanitizeP [[.val 0, .posinf], [.val 0, .val 0]]).getD 0 []).getD 1 0 = 1 ∧
    ((sanitizeP [[.val 0, .posinf], [.val 0, .val 0]]).getD 0 []).getD 1 0 ≠ 1 / 2 := by
  constructor
  · rfl
  · rw [show ((sanitizeP [[.val 0, .posinf], [.val 0, .val 0]]).getD 0 []).getD 1 0
        = 1 from rfl]
    norm_num

/-- C5 (amended): after the win-probability matrix `P` is computed,
every NaN entry is replaced with the neutral value 0.5, every `+inf`
entry with 1.0 and every `-inf` entry with 0.0; every entry is clamped
to [0, 1] and every diagonal entry is set to 0.  The tie-rate matrix
likewise ends with every entry in [0, 1] and a zero diagonal. -/
theorem sanitize_nan_inf_policy (M : List (List NpFloat)) :
    (∀ i j, 0 ≤ ((sanitizeP M).getD i []).getD j 0 ∧
      ((sanitizeP M).getD i []).getD j 0 ≤ 1) ∧
    (∀ i, ((sanitizeP M).getD i []).getD i 0 = 0) ∧
    (∀ i j, i ≠ j → i < M.length → j < (M.getD i []).length →
      ((M.getD i []).getD j .nan = .nan →
        ((sanitizeP M).getD i []).getD j 0 = 1 / 2) ∧
      ((M.getD i []).getD j .nan = .posinf →
        ((sanitizeP M).getD i []).getD j 0 = 1) ∧
      ((M.getD i []).getD j .nan = .neginf →
        ((sanitizeP M).getD i []).getD j 0 = 0)) ∧
    (∀ i j, 0 ≤ ((sanitizeTie M).getD i []).getD j 0 ∧
      ((sanitizeTie M).getD i []).getD j 0 ≤ 1) ∧
    (∀ i, ((sanitizeTie M).getD i []).getD i 0 = 0) := by
  refine ⟨fun i j => sanitizeGen_bounds _ M i j,
    fun i => sanitizeGen_diag _ M i,
    fun i j hne hi hj => ?_,
    fun i j => sanitizeGen_bounds _ _ i j,
    fun i => sanitizeGen_diag _ _ i⟩
  have he := sanitizeGen_entry (nan_to_num (1 / 2) 1 0) M i j hi hj
  rw [if_neg hne] at he
  refine ⟨fun hx => ?_, fun hx => ?_, fun hx => ?_⟩ <;>
    rw [show sanitizeP M = M.mapIdx (fun a row => row.mapIdx
      (fun b x => if a = b then 0 else clip01 (nan_to_num (1 / 2) 1 0 x))) from rfl,
      he, hx] <;>
    norm_num [clip01, nan_to_num]

/-- Witness for `sanitize_nan_inf_policy` on a concrete matrix with a
`+inf` off-diagonal entry. -/
theorem sanitize_nan_inf_policy_witness :
    (0 ≤ ((sanitizeP [[.val 0, .nan], [.posinf, .val 0]]).getD 0 []).getD 1 0 ∧
      ((sanitizeP [[.val 0, .nan], [.posinf, .val 0]]).getD 0 []).getD 1 0 ≤ 1) ∧
    ((sanitizeP [[.val 0, .nan], [.posinf, .val 0]]).getD 0 []).getD 0 0 = 0 ∧
    ((sanitizeP [[.val 0, .nan], [.posinf, .val 0]]).getD 0 []).getD 1 0 = 1 / 2 ∧
    ((sanitizeP [[.val 0, .nan], [.posinf, .val 0]]).getD 1 []).getD 0 0 = 1 ∧
    (0 ≤ ((sanitizeTie [[.val 0, .nan], [.posinf, .val 0]]).getD 1 []).getD 0 0 ∧
      ((sanitizeTie [[.val 0, .nan], [.posinf, .val 0]]).getD 1 []).getD 0 0 ≤ 1) ∧
    ((sanitizeTie [[.val 0, .nan], [.posinf, .val 0]]).getD 1 []).getD 1 0 = 0 :=
  ⟨(sanitize_nan_inf_policy [[.val 0, .nan], [.posinf, .val 0]]).1 0 1,
   (sanitize_nan_inf_policy [[.val 0, .nan], [.posinf, .val 0]]).2.1 0,
   ((sanitize_nan_inf_policy [[.val 0, .nan], [.posinf, .val 0]]).2.2.1 0 1
      (by decide) (by decide) (by decide)).1 (by decide),
   ((sanitize_nan_inf_policy [[.val 0, .nan], [.posinf, .val 0]]).2.2.1 1 0
      (by decide) (by decide) (by decide)).2.1 (by decide),
   (sanitize_nan_inf_policy [[.val 0, .nan], [.posinf, .val 0]]).2.2.2.1 1 0,
   (sanitize_nan_inf_policy [[.val 0, .nan], [.posinf, .val 0]]).2.2.2.2 1⟩

theorem sum_map_const_one {α β : Type} (l : List α) (g : α → β) :
    (l.map ((fun _ => (1 : ℕ)) ∘ g)).sum = l.length := by
  induction l with
  | nil => rfl
  | cons a l ih => simp [ih, Nat.add_comm]

theorem countP_fubini {α β : Type} (l : List α) (s : Finset β)
    (p : β → α → Bool) :
    ∑ b ∈ s, l.countP (p b)
      = (l.map (fun a => (s.filter (fun b => p b a = true)).card)).sum := by
  induction l with
  | nil => simp
  | cons a l ih =>
    simp only [List.countP_cons, List.map_cons, List.sum_cons]
    rw [Finset.sum_add_distrib, ih]
    have hb : ∑ b ∈ s, (if p b a = true then 1 else 0)
        = (s.filter (fun b => p b a = true)).card := by
      rw [Finset.sum_boole]
      simp
    omega

theorem argsortDesc_perm (xs : List ℚ) :
    (argsortDesc xs).Perm (List.range xs.length) :=
  List.mergeSort_perm _ _

theorem argsortDesc_length (xs : List ℚ) :
    (argsortDesc xs).length = xs.length := by
  simp [argsortDesc, List.length_mergeSort]

theorem argsortDesc_nodup (xs : List ℚ) : (argsortDesc xs).Nodup :=
  (argsortDesc_perm xs).symm.nodup (List.nodup_range _)

theorem rankOfTeam_mem_Icc (xs : List ℚ) (n i : ℕ) (hlen : xs.length = n)
    (hi : i < n) : rankOfTeam (argsortDesc xs) i ∈ Finset.Icc 1 n := by
  have hmem : i ∈ argsortDesc xs :=
    (argsortDesc_perm xs).mem_iff.2 (List.mem_range.2 (by omega))
  have hlt : (argsortDesc xs).indexOf i < (argsortDesc xs).length :=
    List.indexOf_lt_length.2 hmem
  have hlen2 : (argsortDesc xs).length = n := by rw [argsortDesc_length, hlen]
  rw [Finset.mem_Icc, rankOfTeam]
  omega

theorem rank_count_row (M : List (List ℚ)) (n : ℕ)
    (hlen : ∀ row ∈ M, row.length = n) (i : ℕ) (hi : i < n) :
    ∑ r ∈ Finset.Icc 1 n, rankCount M i r = M.length := by
  unfold rankCount
  rw [countP_fubini]
  have hcard : ∀ ord ∈ M.map argsortDesc,
      ((Finset.Icc 1 n).filter
        (fun r => decide (rankOfTeam ord i = r) = true)).card = 1 := by
    intro ord hord
    obtain ⟨row, hrow, rfl⟩ := List.mem_map.1 hord
    have hmem := rankOfTeam_mem_Icc row n i (hlen row hrow) hi
    have hset : (Finset.Icc 1 n).filter
        (fun r => decide (rankOfTeam (argsortDesc row) i = r) = true)
        = {rankOfTeam (argsortDesc row) i} := by
      ext r
      simp only [Finset.mem_filter, decide_eq_true_eq, Finset.mem_singleton]
      constructor
      · rintro ⟨_, h⟩
        exact h.symm
      · rintro rfl
        exact ⟨hmem, rfl⟩
    rw [hset, Finset.card_singleton]
  rw [List.map_congr_left hcard]
  simp only [List.map_map]
  exact sum_map_const_one M argsortDesc

theorem rank_count_col (M : List (List ℚ)) (n : ℕ)
    (hlen : ∀ row ∈ M, row.length = n) (r : ℕ) (hr1 : 1 ≤ r) (hrn : r ≤ n) :
    ∑ i ∈ Finset.range n, rankCount M i r = M.length := by
  unfold rankCount
  rw [countP_fubini]
  have hcard : ∀ ord ∈ M.map argsortDesc,
      ((Finset.range n).filter
        (fun i => decide (rankOfTeam ord i = r) = true)).card = 1 := by
    intro ord hord
    obtain ⟨row, hrow, rfl⟩ := List.mem_map.1 hord
    have hlen2 : (argsortDesc row).length = n := by
      rw [argsortDesc_length, hlen row hrow]
    have hnodup : (argsortDesc row).Nodup := argsortDesc_nodup row
    have hre : r - 1 < (argsortDesc row).length := by omega
    have hset : (Finset.range n).filter
        (fun i => decide (rankOfTeam (argsortDesc row) i = r) = true)
        = {(argsortDesc row)[r - 1]} := by
      ext i
      simp only [Finset.mem_filter, decide_eq_true_eq, Finset.mem_singleton,
        Finset.mem_range]
      constructor
      · rintro ⟨hin, heq⟩
        have hio : i ∈ argsortDesc row :=
          (argsortDesc_perm row).mem_iff.2
            (List.mem_range.2 (by rw [hlen row hrow]; omega))
        have hidx : (argsortDesc row).indexOf i < (argsortDesc row).length :=
          List.indexOf_lt_length.2 hio
        have hidxr : (argsortDesc row).indexOf i = r - 1 := by
          rw [rankOfTeam] at heq
          omega
        have hgi := List.getElem_indexOf hidx
        simp only [hidxr] at hgi
        exact hgi.symm
      · rintro rfl
        have hmem : (argsortDesc row)[r - 1] ∈ argsortDesc row :=
          List.getElem_mem hre
        have hlt : (argsortDesc row)[r - 1] < n := by
          have := (argsortDesc_perm row).mem_iff.1 hmem
          rw [List.mem_range, hlen row hrow] at this
          omega
        refine ⟨hlt, ?_⟩
        rw [rankOfTeam, List.indexOf_getElem hnodup (r - 1) hre]
        omega
    rw [hset, Finset.card_singleton]
  rw [List.map_congr_left hcard]
  simp only [List.map_map]
  exact sum_map_const_one M argsortDesc

/-- C3: the rank-probability matrix of the pairwise (Bradley-Terry)
simulation: for a matrix of perturbed win percentages with one row of
length `n` per simulated season, every team's rank probabilities over
ranks 1..n sum to exactly 100, and for every fixed rank the
probabilities over the `n` teams sum to exactly 100, because every
simulated season assigns each rank to exactly one team. -/
theorem rank_pct_sums_100 (M : List (List ℚ)) (n : ℕ) (hM : M ≠ [])
    (hlen : ∀ row ∈ M, row.length = n) :
    (∀ i < n, ∑ r ∈ Finset.Icc 1 n, rank_pct M i r = 100) ∧
    (∀ r ∈ Finset.Icc 1 n, ∑ i ∈ Finset.range n, rank_pct M i r = 100) := by
  have hL : ((M.length : ℚ)) ≠ 0 :=
    Nat.cast_ne_zero.2 (fun h => hM (List.length_eq_zero.1 h))
  constructor
  · intro i hi
    unfold rank_pct
    rw [← Finset.sum_mul, ← Finset.sum_div, ← Nat.cast_sum,
      rank_count_row M n hlen i hi, div_self hL, one_mul]
  · intro r hr
    rw [Finset.mem_Icc] at hr
    unfold rank_pct
    rw [← Finset.sum_mul, ← Finset.sum_div, ← Nat.cast_sum,
      rank_count_col M n hlen r hr.1 hr.2, div_self hL, one_mul]

/-- Witness for `rank_pct_sums_100` on a concrete 2-season, 2-team
matrix of win percentages. -/
theorem rank_pct_sums_100_witness :
    (∑ r ∈ Finset.Icc 1 2, rank_pct [[(1 : ℚ), 0], [0, 1]] 0 r = 100) ∧
    (∑ i ∈ Finset.range 2, rank_pct [[(1 : ℚ), 0], [0, 1]] i 1 = 100) :=
  ⟨(rank_pct_sums_100 [[1, 0], [0, 1]] 2 (by decide) (by decide)).1 0
      (by decide),
   (rank_pct_sums_100 [[1, 0], [0, 1]] 2 (by decide) (by decide)).2 1
      (by decide)⟩

theorem champBatchSizes_sum (batch q r : ℕ) (hb : 0 < batch) (hr : r < batch) :
    (champBatchSizes (batch * q + r) batch).sum = batch * q + r := by
  unfold champBatchSizes
  show (∑ b ∈ Finset.range ((batch * q + r + batch - 1) / batch),
    (if (b + 1) * batch ≤ batch * q + r then batch else batch * q + r - b * batch))
    = batch * q + r
  have hc : batch * q = q * batch := Nat.mul_comm ..
  by_cases hr0 : r = 0
  · subst hr0
    have hnB : (batch * q + 0 + batch - 1) / batch = q := by
      have h1 : batch * q + 0 + batch - 1 = batch * q + (batch - 1) := by omega
      rw [h1, Nat.mul_add_div hb, Nat.div_eq_of_lt (by omega)]
      omega
    rw [hnB]
    have hconst : ∀ b ∈ Finset.range q,
        (if (b + 1) * batch ≤ batch * q + 0 then batch
          else batch * q + 0 - b * batch) = batch := by
      intro b hbq
      rw [Finset.mem_range] at hbq
      rw [if_pos]
      calc (b + 1) * batch ≤ q * batch := Nat.mul_le_mul_right _ (by omega)
        _ = batch * q := (Nat.mul_comm ..)
        _ ≤ batch * q + 0 := le_refl _
    rw [Finset.sum_congr rfl hconst, Finset.sum_const, Finset.card_range,
      smul_eq_mul]
    omega
  · have hnB : (batch * q + r + batch - 1) / batch = q + 1 := by
      have h1 : batch * q + r + batch - 1 = batch * q + (r + batch - 1) := by
        omega
      rw [h1, Nat.mul_add_div hb,
        (@Nat.div_eq_of_lt_le 1 batch (r + batch - 1) (by omega) (by omega))]
    rw [hnB, Finset.sum_range_succ]
    have hconst : ∀ b ∈ Finset.range q,
        (if (b + 1) * batch ≤ batch * q + r then batch
          else batch * q + r - b * batch) = batch := by
      intro b hbq
      rw [Finset.mem_range] at hbq
      rw [if_pos]
      calc (b + 1) * batch ≤ q * batch := Nat.mul_le_mul_right _ (by omega)
        _ = batch * q := (Nat.mul_comm ..)
        _ ≤ batch * q + r := Nat.le_add_right ..
    rw [Finset.sum_congr rfl hconst, Finset.sum_const, Finset.card_range,
      smul_eq_mul]
    have hq1 : (q + 1) * batch = q * batch + batch := by ring
    have hlast : ¬ (q + 1) * batch ≤ batch * q + r := by omega
    rw [if_neg hlast]
    omega

theorem champBatchSizes_sum_10000 (numSim : ℕ) :
    (champBatchSizes numSim 10000).sum = numSim := by
  have h := champBatchSizes_sum 10000 (numSim / 10000) (numSim % 10000)
    (by norm_num) (Nat.mod_lt _ (by norm_num))
  rwa [Nat.div_add_mod] at h

theorem simColumns_length (B : ℕ) : ∀ (ts : List Team) (g : Rng),
    (simColumns ts B g).1.length = ts.length := by
  intro ts
  induction ts with
  | nil => intro g; rfl
  | cons tm rest ih => intro g; simp [simColumns, ih]

theorem finalWinsRow_length (ts : List Team) (cols : List (List ℕ)) (s : ℕ)
    (hlen : cols.length = ts.length) :
    (finalWinsRow ts cols s).length = ts.length := by
  simp [finalWinsRow, List.length_zip, hlen]

theorem seasonWinners_length (ts : List Team) (B : ℕ) (cols : List (List ℕ)) :
    (seasonWinners ts B cols).length = B := by
  simp [seasonWinners]

theorem runBatches_length (ts : List Team) (hts : ts ≠ []) :
    ∀ (sizes : List ℕ) (g : Rng),
    (runBatches ts sizes g).1.length = sizes.sum := by
  intro sizes
  induction sizes with
  | nil => intro g; rfl
  | cons B rest ih =>
    intro g
    rw [runBatches]
    by_cases hB : B = 0
    · rw [if_pos hB, ih, hB, List.sum_cons, Nat.zero_add]
    · rw [if_neg hB]
      have hempty : ts.isEmpty = false := List.isEmpty_eq_false.2 hts
      simp only [hempty, Bool.false_eq_true, if_false, List.length_append,
        seasonWinners_length, ih, List.sum_cons]

theorem runBatches_mem_lt (ts : List Team) (hts : ts ≠ []) :
    ∀ (sizes : List ℕ) (g : Rng),
    ∀ w ∈ (runBatches ts sizes g).1, w < ts.length := by
  intro sizes
  induction sizes with
  | nil => intro g w hw; simp [runBatches] at hw
  | cons B rest ih =>
    intro g w hw
    rw [runBatches] at hw
    by_cases hB : B = 0
    · rw [if_pos hB] at hw
      exact ih _ w hw
    · rw [if_neg hB] at hw
      have hempty : ts.isEmpty = false := List.isEmpty_eq_false.2 hts
      simp only [hempty, Bool.false_eq_true, if_false] at hw
      rcases List.mem_append.1 hw with h | h
      · obtain ⟨s, _, rfl⟩ := List.mem_map.1 h
        have hrl : (finalWinsRow ts (simColumns ts B g).1 s).length = ts.length :=
          finalWinsRow_length ts _ s (simColumns_length B ts g)
        have hne : finalWinsRow ts (simColumns ts B g).1 s ≠ [] := by
          intro hcon
          rw [hcon] at hrl
          exact hts (List.length_eq_zero.1 hrl.symm)
        have := npArgmax_lt_length _ hne
        omega
      · exact ih _ w h

theorem sum_map_ite_eq (ks : List String) (t : String) (c : ℚ)
    (hnd : ks.Nodup) (ht : t ∈ ks) :
    (ks.map (fun k => if k = t then c else 0)).sum = c := by
  induction ks with
  | nil => cases ht
  | cons a ks ih =>
    rcases List.mem_cons.1 ht with rfl | hmem
    · simp only [List.map_cons, List.sum_cons, if_pos rfl]
      have hz : (ks.map (fun k => if k = t then c else 0)).sum = 0 := by
        refine List.sum_eq_zero ?_
        intro x hx
        obtain ⟨k, hk, rfl⟩ := List.mem_map.1 hx
        rw [if_neg]
        rintro rfl
        exact (List.nodup_cons.1 hnd).1 hk
      rw [hz, add_zero]
      simp
    · have hna : a ≠ t := by
        rintro rfl
        exact (List.nodup_cons.1 hnd).1 hmem
      simp only [List.map_cons, List.sum_cons, if_neg hna]
      rw [ih (List.nodup_cons.1 hnd).2 hmem, zero_add]

theorem sum_map_ite_count (ks : List String) (t : String)
    (hnd : ks.Nodup) (ht : t ∈ ks) :
    (ks.map (fun k => if t = k then (1 : ℕ) else 0)).sum = 1 := by
  induction ks with
  | nil => cases ht
  | cons a ks ih =>
    rcases List.mem_cons.1 ht with rfl | hmem
    · simp only [List.map_cons, List.sum_cons, if_pos rfl]
      have hz : (ks.map (fun k => if t = k then (1 : ℕ) else 0)).sum = 0 := by
        refine List.sum_eq_zero ?_
        intro x hx
        obtain ⟨k, hk, rfl⟩ := List.mem_map.1 hx
        rw [if_neg]
        rintro rfl
        exact (List.nodup_cons.1 hnd).1 hk
      rw [hz]
      simp
    · have hna : t ≠ a := by
        rintro rfl
        exact (List.nodup_cons.1 hnd).1 hmem
      simp only [List.map_cons, List.sum_cons, if_neg hna]
      rw [ih (List.nodup_cons.1 hnd).2 hmem, zero_add]

theorem sum_countP_dedup (keys : List String) : ∀ (l : List String),
    (∀ x ∈ l, x ∈ keys) →
    (keys.dedup.map (fun k => l.countP (fun x => x == k))).sum = l.length := by
  intro l
  induction l with
  | nil => simp
  | cons x l ih =>
    intro hsub
    have hx : x ∈ keys.dedup :=
      List.mem_dedup.2 (hsub x (List.mem_cons_self ..))
    simp only [List.countP_cons]
    rw [List.sum_map_add]
    rw [ih (fun y hy => hsub y (List.mem_cons_of_mem _ hy))]
    have h1 : (keys.dedup.map (fun k => if (x == k) = true then (1 : ℕ) else 0)).sum = 1 := by
      have := sum_map_ite_count keys.dedup x (List.nodup_dedup keys) hx
      simpa [beq_iff_eq] using this
    rw [h1, List.length_cons]

theorem sum_map_div_mul (ks : List String) (f : String → ℕ) (d : ℚ) :
    (ks.map (fun k => ((f k : ℚ)) / d * 100)).sum
      = (((ks.map f).sum : ℕ) : ℚ) / d * 100 := by
  induction ks with
  | nil => simp
  | cons a ks ih =>
    simp only [List.map_cons, List.sum_cons, ih]
    push_cast
    ring

theorem getD_mem_of_lt {α : Type} [Inhabited α] (l : List α) (i : ℕ) (d : α)
    (h : i < l.length) : l.getD i d ∈ l := by
  rw [List.getD_eq_getElem l d h]
  exact List.getElem_mem h

/-- C2: for every valid input table (non-`None`, non-empty, with the
required columns present) and every positive trial count, the
championship probabilities returned by
`calculate_championship_probability` sum to exactly 100 across the
team-name keys, because exactly one winner is counted per simulated
season; this holds both on the sampling path and on the
all-games-complete short-circuit path, for every random state. -/
theorem champ_prob_sum_100 (t : SimTable) (numSim : ℕ) (g : Rng)
    (hrows : t.rows ≠ []) (hcols : requiredColsPresent t = true)
    (hS : 1 ≤ numSim) :
    (((calculate_championship_probability (some t) numSim g).1.map
      Prod.snd)).sum = 100 := by
  have hre : t.rows.isEmpty = false := List.isEmpty_eq_false.2 hrows
  have hts : cleanTeams t.rows ≠ [] := by
    simpa [cleanTeams, List.map_eq_nil_iff] using hrows
  have htse : (cleanTeams t.rows).isEmpty = false := List.isEmpty_eq_false.2 hts
  have hnames : ((cleanTeams t.rows).map Team.name).length
      = (cleanTeams t.rows).length := List.length_map ..
  unfold calculate_championship_probability
  simp only [hre, Bool.false_eq_true, if_false, hcols, not_true_eq_false,
    htse]
  by_cases hall : (cleanTeams t.rows).all (fun tm => decide (tm.remain = 0))
  · rw [if_pos hall]
    rw [List.map_map]
    have hw : npArgmax ((cleanTeams t.rows).map Team.wins)
        < ((cleanTeams t.rows).map Team.name).length := by
      have hne : (cleanTeams t.rows).map Team.wins ≠ [] := by
        simpa [List.map_eq_nil_iff] using hts
      have := npArgmax_lt_length _ hne
      rw [List.length_map] at this ⊢
      exact this
    have hmem : ((cleanTeams t.rows).map Team.name).getD
        (npArgmax ((cleanTeams t.rows).map Team.wins)) ""
        ∈ ((cleanTeams t.rows).map Team.name).dedup :=
      List.mem_dedup.2 (getD_mem_of_lt _ _ _ hw)
    exact sum_map_ite_eq _ _ 100 (List.nodup_dedup _) hmem
  · rw [if_neg hall]
    rw [List.map_map]
    set ts := cleanTeams t.rows with hts_def
    set names := ts.map Team.name with hnames_def
    set res := runBatches ts (champBatchSizes numSim 10000) g with hres
    set winNames := res.1.map (fun i => names.getD i "") with hwn
    have hsub : ∀ x ∈ winNames, x ∈ names := by
      intro x hx
      obtain ⟨i, hi, rfl⟩ := List.mem_map.1 hx
      have hlt : i < names.length := by
        rw [hnames_def, List.length_map]
        exact runBatches_mem_lt ts hts _ g i hi
      exact getD_mem_of_lt _ _ _ hlt
    have hlen : winNames.length = numSim := by
      rw [hwn, List.length_map, hres, runBatches_length ts hts,
        champBatchSizes_sum_10000]
    have hsum := sum_countP_dedup names winNames hsub
    rw [hlen] at hsum
    calc (names.dedup.map (Prod.snd ∘ fun nm =>
          (nm, ((winNames.countP (fun x => x == nm) : ℚ)) / (numSim : ℚ) * 100))).sum
        = (names.dedup.map (fun nm =>
          ((winNames.countP (fun x => x == nm) : ℚ)) / (numSim : ℚ) * 100)).sum := rfl
      _ = (((names.dedup.map (fun nm =>
          winNames.countP (fun x => x == nm))).sum : ℕ) : ℚ) / (numSim : ℚ) * 100 :=
          sum_map_div_mul _ _ _
      _ = ((numSim : ℚ)) / (numSim : ℚ) * 100 := by rw [hsum]
      _ = 100 := by
          rw [div_self (Nat.cast_ne_zero.2 (by omega))]
          norm_num

/-- Witness for `champ_prob_sum_100` on a concrete two-team table with
one trial. -/
theorem champ_prob_sum_100_witness :
    (((calculate_championship_probability (some ⟨true, true, true, true,
      [⟨some "A", some 3, some 0, some 2⟩, ⟨some "B", some 1, some 1, some 0⟩]⟩)
      1 (mkRng 0)).1.map Prod.snd)).sum = 100 :=
  champ_prob_sum_100 ⟨true, true, true, true,
    [⟨some "A", some 3, some 0, some 2⟩, ⟨some "B", some 1, some 1, some 0⟩]⟩
    1 (mkRng 0) (by decide) (by decide) (by decide)

theorem lookup_map_keys (ks : List String) (f : String → ℚ) (a : String)
    (ha : a ∈ ks) :
    (ks.map (fun k => (k, f k))).lookup a = some (f a) := by
  induction ks with
  | nil => cases ha
  | cons b ks ih =>
    simp only [List.map_cons, List.lookup_cons]
    by_cases hab : a = b
    · subst hab
      simp
    · have hbe : (a == b) = false := beq_eq_false_iff_ne.2 hab
      rw [hbe]
      exact ih (by
        rcases List.mem_cons.1 ha with h | h
        · exact absurd h hab
        · exact h)

theorem teamColumn_getD_le (tm : Team) (B : ℕ) (g : Rng) (s : ℕ) :
    (teamColumn tm B g).1.getD s 0 ≤ tm.remain := by
  unfold teamColumn
  split
  · by_cases hs : s < B
    · rw [List.getD_eq_getElem _ _ (by simpa using hs), List.getElem_replicate]
      exact Nat.zero_le _
    · rw [List.getD_eq_default _ _ (by simpa using not_lt.1 hs)]
      exact Nat.zero_le _
  · split
    · by_cases hs : s < B
      · rw [List.getD_eq_getElem _ _ (by simpa using hs), List.getElem_replicate]
      · rw [List.getD_eq_default _ _ (by simpa using not_lt.1 hs)]
        exact Nat.zero_le _
    · exact drawBinomRep_getD_le tm.remain tm.p_wpct B g s

theorem teamColumn_zero (tm : Team) (B : ℕ) (g : Rng) (s : ℕ)
    (h : tm.remain = 0) : (teamColumn tm B g).1.getD s 0 = 0 := by
  unfold teamColumn
  rw [if_pos (Or.inl h)]
  by_cases hs : s < B
  · rw [List.getD_eq_getElem _ _ (by simpa using hs), List.getElem_replicate]
  · rw [List.getD_eq_default _ _ (by simpa using not_lt.1 hs)]

theorem simColumns_getD_le (B : ℕ) : ∀ (ts : List Team) (g : Rng) (k s : ℕ),
    ((simColumns ts B g).1.getD k []).getD s 0 ≤ (ts.getD k default).remain := by
  intro ts
  induction ts with
  | nil => intro g k s; simp [simColumns]
  | cons tm rest ih =>
    intro g k s
    match k with
    | 0 => exact teamColumn_getD_le tm B g s
    | k + 1 =>
      simp only [simColumns, List.getD_cons_succ]
      exact ih _ k s

theorem simColumns_getD_zero (B : ℕ) : ∀ (ts : List Team) (g : Rng) (k s : ℕ),
    (ts.getD k default).remain = 0 →
    ((simColumns ts B g).1.getD k []).getD s 0 = 0 := by
  intro ts
  induction ts with
  | nil => intro g k s _; simp [simColumns]
  | cons tm rest ih =>
    intro g k s h
    match k with
    | 0 => exact teamColumn_zero tm B g s h
    | k + 1 =>
      simp only [simColumns, List.getD_cons_succ]
      exact ih _ k s h

theorem finalWinsRow_getD (ts : List Team) (cols : List (List ℕ)) (s k : ℕ)
    (hk : k < ts.length) (hlen : cols.length = ts.length) :
    (finalWinsRow ts cols s).getD k 0
      = (ts.getD k default).wins + ((cols.getD k []).getD s 0 : ℤ) := by
  unfold finalWinsRow
  rw [List.getD_eq_getElem _ _
    (by rw [List.length_map, List.length_zip]; omega)]
  rw [List.getElem_map, List.getElem_zip]
  rw [List.getD_eq_getElem ts default hk,
    List.getD_eq_getElem cols [] (by omega)]

theorem seasonWinner_eq_leader (ts : List Team) (cols : List (List ℕ))
    (hlen : cols.length = ts.length) (i : ℕ) (hi : i < ts.length)
    (hzero : ∀ s, (cols.getD i []).getD s 0 = 0)
    (hbound : ∀ k s, (cols.getD k []).getD s 0 ≤ (ts.getD k default).remain)
    (hdom : ∀ j, j < ts.length → j ≠ i →
      (ts.getD j default).wins + ((ts.getD j default).remain : ℤ)
        < (ts.getD i default).wins)
    (s : ℕ) : npArgmax (finalWinsRow ts cols s) = i := by
  have hrl : (finalWinsRow ts cols s).length = ts.length :=
    finalWinsRow_length ts cols s hlen
  have hi2 : i < (finalWinsRow ts cols s).length := by omega
  apply npArgmax_eq_of_unique _ i hi2
  intro j hj hji
  have hj' : j < ts.length := by omega
  have hvj : (finalWinsRow ts cols s)[j]
      = (ts.getD j default).wins + ((cols.getD j []).getD s 0 : ℤ) := by
    rw [← List.getD_eq_getElem _ 0 hj, finalWinsRow_getD ts cols s j hj' hlen]
  have hvi2 : (finalWinsRow ts cols s)[i] = (ts.getD i default).wins := by
    rw [← List.getD_eq_getElem _ 0 hi2, finalWinsRow_getD ts cols s i hi hlen,
      hzero s]
    simp
  rw [hvj, hvi2]
  have h1 := hbound j s
  have h2 := hdom j hj' hji
  have h3 : ((cols.getD j []).getD s 0 : ℤ) ≤ ((ts.getD j default).remain : ℤ) := by
    exact_mod_cast h1
  omega

theorem runBatches_winners_eq (ts : List Team) (hts : ts ≠ []) (i : ℕ)
    (hi : i < ts.length) (hrem : (ts.getD i default).remain = 0)
    (hdom : ∀ j, j < ts.length → j ≠ i →
      (ts.getD j default).wins + ((ts.getD j default).remain : ℤ)
        < (ts.getD i default).wins) :
    ∀ (sizes : List ℕ) (g : Rng), ∀ w ∈ (runBatches ts sizes g).1, w = i := by
  intro sizes
  induction sizes with
  | nil => intro g w hw; simp [runBatches] at hw
  | cons B rest ih =>
    intro g w hw
    rw [runBatches] at hw
    by_cases hB : B = 0
    · rw [if_pos hB] at hw
      exact ih _ w hw
    · rw [if_neg hB] at hw
      have hempty : ts.isEmpty = false := List.isEmpty_eq_false.2 hts
      simp only [hempty, Bool.false_eq_true, if_false] at hw
      rcases List.mem_append.1 hw with h | h
      · obtain ⟨s, _, rfl⟩ := List.mem_map.1 h
        exact seasonWinner_eq_leader ts (simColumns ts B g).1
          (simColumns_length B ts g) i hi
          (fun s2 => simColumns_getD_zero B ts g i s2 hrem)
          (fun k s2 => simColumns_getD_le B ts g k s2) hdom s
      · exact ih _ w h

/-- C6 counterexample: in `leaderCounterTable` team A has zero
remaining games and the strict maximum of current wins (2 > 1), yet its
championship probability is 0, not 100: team B still has 2 remaining
games with win probability 1 and overtakes A in every simulated
season. -/
theorem champ_prob_leader_counterexample :
    (calculate_championship_probability (some leaderCounterTable) 1
      (mkRng 0)).1.lookup "A" = some 0 ∧ (0 : ℚ) ≠ 100 := by
  constructor
  · unfold calculate_championship_probability
    simp only [show leaderCounterTable.rows.isEmpty = false from rfl,
      show requiredColsPresent leaderCounterTable = true from rfl,
      show (cleanTeams leaderCounterTable.rows).isEmpty = false from rfl,
      show ((cleanTeams leaderCounterTable.rows).all
        (fun tm => decide (tm.remain = 0))) = false from rfl,
      Bool.false_eq_true, if_false, not_true_eq_false]
    rw [lookup_map_keys _ _ "A" (by decide)]
    have hcnt : (((runBatches (cleanTeams leaderCounterTable.rows)
        (champBatchSizes 1 10000) (mkRng 0)).1.map
        (fun i => ((cleanTeams leaderCounterTable.rows).map Team.name).getD i "")).countP
        (fun x => x == "A")) = 0 := by decide
    rw [hcnt]
    norm_num
  · norm_num

/-- C6 (amended): for every valid input table, positive trial count and
random state, if team `i` has zero remaining games and every other team
cannot reach its current win total even by winning all of its remaining
games (current wins + remaining < team `i`'s wins), then
`calculate_championship_probability` assigns team `i`'s name a
championship probability of exactly 100, deterministically,
independently of the trial count and of the random state; this covers
both the all-games-complete short-circuit and the sampling path. -/
theorem champ_prob_certain_leader (t : SimTable) (numSim : ℕ) (g : Rng)
    (i : ℕ) (hrows : t.rows ≠ []) (hcols : requiredColsPresent t = true)
    (hS : 1 ≤ numSim) (hi : i < (cleanTeams t.rows).length)
    (hrem : ((cleanTeams t.rows).getD i default).remain = 0)
    (hdom : ∀ j, j < (cleanTeams t.rows).length → j ≠ i →
      ((cleanTeams t.rows).getD j default).wins
        + (((cleanTeams t.rows).getD j default).remain : ℤ)
        < ((cleanTeams t.rows).getD i default).wins) :
    (calculate_championship_probability (some t) numSim g).1.lookup
      (((cleanTeams t.rows).map Team.name).getD i "") = some 100 := by
  have hre : t.rows.isEmpty = false := List.isEmpty_eq_false.2 hrows
  have hts : cleanTeams t.rows ≠ [] := by
    simpa [cleanTeams, List.map_eq_nil_iff] using hrows
  have htse : (cleanTeams t.rows).isEmpty = false := List.isEmpty_eq_false.2 hts
  have hiN : i < ((cleanTeams t.rows).map Team.name).length := by
    rw [List.length_map]
    exact hi
  have hmemD : ((cleanTeams t.rows).map Team.name).getD i ""
      ∈ ((cleanTeams t.rows).map Team.name).dedup :=
    List.mem_dedup.2 (getD_mem_of_lt _ _ _ hiN)
  unfold calculate_championship_probability
  simp only [hre, Bool.false_eq_true, if_false, hcols, not_true_eq_false, htse]
  by_cases hall : (cleanTeams t.rows).all (fun tm => decide (tm.remain = 0))
  · rw [if_pos hall, lookup_map_keys _ _ _ hmemD]
    have hwix : npArgmax ((cleanTeams t.rows).map Team.wins) = i := by
      apply npArgmax_eq_of_unique _ i (by rw [List.length_map]; exact hi)
      intro j hj hji
      rw [List.length_map] at hj
      have h2 := hdom j hj hji
      have hjw : ((cleanTeams t.rows).map Team.wins)[j]
          = ((cleanTeams t.rows).getD j default).wins := by
        rw [List.getElem_map, List.getD_eq_getElem _ default hj]
      have hi' : i < ((cleanTeams t.rows).map Team.wins).length := by
        rw [List.length_map]
        exact hi
      have hiw : ((cleanTeams t.rows).map Team.wins)[i]
          = ((cleanTeams t.rows).getD i default).wins := by
        rw [List.getElem_map, List.getD_eq_getElem _ default hi]
      rw [hjw, hiw]
      have hremj : ((cleanTeams t.rows).getD j default).remain = 0 := by
        have := List.all_eq_true.1 hall _ (getD_mem_of_lt _ j default hj)
        simpa using this
      omega
    rw [hwix, if_pos rfl]
  · rw [if_neg hall, lookup_map_keys _ _ _ hmemD]
    have hwe := runBatches_winners_eq (cleanTeams t.rows) hts i hi hrem hdom
      (champBatchSizes numSim 10000) g
    have hcnt : (((runBatches (cleanTeams t.rows)
        (champBatchSizes numSim 10000) g).1.map
        (fun k => ((cleanTeams t.rows).map Team.name).getD k "")).countP
        (fun x => x == ((cleanTeams t.rows).map Team.name).getD i ""))
        = ((runBatches (cleanTeams t.rows)
        (champBatchSizes numSim 10000) g).1.map
        (fun k => ((cleanTeams t.rows).map Team.name).getD k "")).length := by
      apply List.countP_eq_length.2
      intro x hx
      obtain ⟨w, hw, rfl⟩ := List.mem_map.1 hx
      rw [hwe w hw]
      simp
    rw [hcnt, List.length_map, runBatches_length _ hts,
      champBatchSizes_sum_10000]
    rw [div_self (Nat.cast_ne_zero.2 (by omega) : ((numSim : ℚ)) ≠ 0), one_mul]

/-- Witness for `champ_prob_certain_leader` on `leaderWitnessTable`
with one trial. -/
theorem champ_prob_certain_leader_witness :
    (calculate_championship_probability (some leaderWitnessTable) 1
      (mkRng 0)).1.lookup
      (((cleanTeams leaderWitnessTable.rows).map Team.name).getD 0 "")
      = some 100 :=
  champ_prob_certain_leader leaderWitnessTable 1 (mkRng 0) 0
    (by decide) (by decide) (by decide) (by decide) (by decide)
    (by
      intro j hj hji
      have hL : (cleanTeams leaderWitnessTable.rows).length = 2 := by decide
      have h2 : j < 2 := by omega
      interval_cases j
      · exact absurd rfl hji
      · decide)
